import Mathlib

/-!
Verification of the Tuffy docker adapter (srli.engine.tuffy.docker).

Strings are embedded as lists of characters.  Python machine floats are
embedded as exact rationals (the adapter only parses decimal literals and
passes the values through; no float arithmetic is performed on them).
The `Relation` and `Rule` collaborators are external to the repository and
are modelled from the spec as plain records with the accessors the adapter
calls.
-/

set_option synthInstance.maxSize 4096

abbrev Str := List Char

def str (s : String) : Str := s.data

/-- Whitespace set used by Python str.strip and the regex class \s
(ASCII subset). -/
def isSpc (c : Char) : Bool :=
  c = ' ' || c = '\t' || c = '\n' || c = '\x0d' || c = '\x0b' || c = '\x0c'

def isDig (c : Char) : Bool := '0' ≤ c && c ≤ '9'

/-- Regex word character class \w (ASCII subset). -/
def isWord (c : Char) : Bool := c.isAlpha || isDig c || c = '_'

/-- Python str.strip(): drop leading and trailing whitespace. -/
def pyStrip (l : Str) : Str :=
  ((l.dropWhile isSpc).reverse.dropWhile isSpc).reverse

/-- Python substring containment (the `in` operator on str). -/
def containsSub (pat l : Str) : Bool :=
  l.tails.any (fun t => pat.isPrefixOf t)

def lowerS (l : Str) : Str := l.map Char.toLower

def upperS (l : Str) : Str := l.map Char.toUpper

/-- Digits of a decimal numeral as a natural number. -/
def natD (l : Str) : Nat :=
  l.foldl (fun a c => a * 10 + (c.toNat - '0'.toNat)) 0

/-- Value of an unsigned decimal literal digits.digits as an exact rational. -/
def ratOfUFloat (g : Str) : Rat :=
  let ip := g.takeWhile (fun c => c ≠ '.')
  let fp := (g.dropWhile (fun c => c ≠ '.')).drop 1
  (natD ip : Rat) + (natD fp : Rat) / ((10 : Rat) ^ fp.length)

/-- Value of a regex group matching -?\d+\.\d+ (Python float() of it,
modelled as the exact decimal value). -/
def ratOfFloatChars (g : Str) : Rat :=
  match g with
  | '-' :: r => -(ratOfUFloat r)
  | _ => ratOfUFloat g

/-- Python float() on a general string, modelled for the decimal literal
forms the adapter can encounter (optional sign, digits with an optional
fractional part).  Returns none where Python float() raises ValueError. -/
def pyFloat (s : Str) : Option Rat :=
  let t := pyStrip s
  let (neg, u) : Bool × Str :=
    match t with
    | '-' :: r => (true, r)
    | '+' :: r => (false, r)
    | _ => (false, t)
  let ip := u.takeWhile isDig
  let rest := u.drop ip.length
  let val? : Option Rat :=
    match rest with
    | [] => if ip = [] then none else some (natD ip : Rat)
    | '.' :: fp =>
        if (ip = [] && fp = []) || !(fp.all isDig) then none
        else some ((natD ip : Rat) + (natD fp : Rat) / ((10 : Rat) ^ fp.length))
    | _ => none
  val?.map (fun v => if neg then -v else v)

def natChars (n : Nat) : Str := Nat.toDigits 10 n

def padZeros (k : Nat) (s : Str) : Str :=
  List.replicate (k - s.length) '0' ++ s

/-- Rendering of a nonnegative rational by the %f conversion:
six digits after the decimal point. -/
def formatFNat (q : Rat) : Str :=
  let n := (Rat.floor (q * 1000000 + 1 / 2)).toNat
  natChars (n / 1000000) ++ '.' :: padZeros 6 (natChars (n % 1000000))

/-- Python "%f" % w formatting, with the decimal rounding of the binary
double abstracted to rounding of the exact rational. -/
def formatF (q : Rat) : Str :=
  if q < 0 then '-' :: formatFNat (-q) else formatFNat q

/-- Python str.replace for a nonempty pattern: leftmost, non-overlapping,
the replacement text is not rescanned. -/
def replaceGo (p0 : Char) (ptail repl : Str) : Str → Str
  | [] => []
  | c :: rest =>
    if (p0 :: ptail).isPrefixOf (c :: rest) then
      repl ++ replaceGo p0 ptail repl (rest.drop ptail.length)
    else
      c :: replaceGo p0 ptail repl rest
termination_by l => l.length
decreasing_by
  · simp only [List.length_drop, List.length_cons]
    omega
  · simp only [List.length_cons]
    omega

def replaceAll (pat repl l : Str) : Str :=
  match pat with
  | [] => l
  | p0 :: pt => replaceGo p0 pt repl l

/-- Python str.split(sep) for a nonempty separator. -/
def pySplitGo (s0 : Char) (stail : Str) : Str → Str → List Str
  | [], acc => [acc.reverse]
  | c :: rest, acc =>
    if (s0 :: stail).isPrefixOf (c :: rest) then
      acc.reverse :: pySplitGo s0 stail (rest.drop stail.length) []
    else
      pySplitGo s0 stail rest (c :: acc)
termination_by l => l.length
decreasing_by
  · simp only [List.length_drop, List.length_cons]
    omega
  · simp only [List.length_cons]
    omega

def pySplit (sep l : Str) : List Str :=
  match sep with
  | [] => [l]
  | s0 :: st => pySplitGo s0 st l []

/-- Python str.partition(c): the part before the first occurrence and the
part after it (the latter empty when the character is absent). -/
def pyPartition (c : Char) (l : Str) : Str × Str :=
  (l.takeWhile (fun x => x ≠ c), (l.dropWhile (fun x => x ≠ c)).drop 1)

/-- Python str.rstrip(c): drop every trailing occurrence of the character. -/
def rstripAll (c : Char) (l : Str) : Str :=
  (l.reverse.dropWhile (fun x => x = c)).reverse

def joinStr (sep : Str) (parts : List Str) : Str :=
  List.intercalate sep parts

/-- Python exception kinds raised by the adapter. -/
inductive PyErr where
  | valueError (msg : Str)
  | indexError (msg : Str)
  | keyError (msg : Str)
deriving DecidableEq

instance {e a : Type} [DecidableEq e] [DecidableEq a] : DecidableEq (Except e a) := fun x y =>
  match x, y with
  | .ok u, .ok v =>
    if h : u = v then isTrue (by rw [h]) else isFalse (fun hh => by cases hh; exact h rfl)
  | .ok _, .error _ => isFalse (fun hh => by cases hh)
  | .error _, .ok _ => isFalse (fun hh => by cases hh)
  | .error u, .error v =>
    if h : u = v then isTrue (by rw [h]) else isFalse (fun hh => by cases hh; exact h rfl)

/-- The list position written by a Python assignment l[i] = v on a list of
length n: negative indices address from the end; none when the index falls
outside [-n, n), where Python raises IndexError. -/
def effSlot (n : Nat) (i : Int) : Option Nat :=
  let j : Int := if i < 0 then i + n else i
  if 0 ≤ j ∧ j < n then some j.toNat else none

/-- Python list item assignment l[i] = v: negative indices address from the
end, anything outside [-len, len) raises IndexError.  No bounds validation
beyond that is performed. -/
def pySet (l : List α) (i : Int) (v : α) : Except PyErr (List α) :=
  match effSlot l.length i with
  | some j => .ok (l.set j v)
  | none => .error (.indexError (str ("list assignment index out of range")))

/-- Python dict assignment on an insertion-ordered association list:
update in place when the key is present, append otherwise. -/
def alSet [DecidableEq κ] : List (κ × ν) → κ → ν → List (κ × ν)
  | [], k, v => [(k, v)]
  | (k', v') :: t, k, v =>
    if k' = k then (k, v) :: t else (k', v') :: alSet t k v

def alGet [DecidableEq κ] : List (κ × ν) → κ → Option ν
  | [], _ => none
  | (k', v') :: t, k => if k' = k then some v' else alGet t k

/-- Modelled from the spec: the external Relation collaborator (typed table
with arity, variable types, observed/unobserved rows, observed flag and an
optional negative prior weight; srli relation model, not part of src/). -/
structure Relation where
  name : Str
  arity : Nat
  variableTypes : List Str
  observedData : List (List Str)
  unobservedData : List (List Str)
  isObserved : Bool
  negativePriorWeight : Option Rat
deriving DecidableEq

/-- Modelled from the spec: a learned weight cell as stored by the weight
parser (False before any assignment, None for fixed/hard, a float for
soft rules). -/
inductive WeightVal where
  | unset
  | hard
  | soft (w : Rat)
deriving DecidableEq

/-- Modelled from the spec: the external Rule collaborator (free rule text
plus a weight or fixed/hard marker; srli rule model, not part of src/). -/
structure Rule where
  text : Str
  weight : WeightVal
deriving DecidableEq

/-- Modelled from the spec: Rule.is_weighted(). -/
def Rule.is_weighted (r : Rule) : Bool :=
  match r.weight with
  | .soft _ => true
  | _ => false

/-- Modelled from the spec: Rule.weight() for a weighted rule. -/
def Rule.weightValue (r : Rule) : Rat :=
  match r.weight with
  | .soft w => w
  | _ => 0

/-- Modelled from the spec: Rule.set_weight(), in-place weight mutation. -/
def Rule.set_weight (r : Rule) (w : WeightVal) : Rule :=
  { r with weight := w }

/-- Modelled from the spec: Relation.set_negative_prior_weight(). -/
def Relation.setNegPrior (r : Relation) (w : Rat) : Relation :=
  { r with negativePriorWeight := some w }

/-- Consume one expected character. -/
def expectChar (c : Char) : Str → Option Str
  | x :: rest => if x = c then some rest else none
  | [] => none

/-- Consume an expected literal token. -/
def expectTok (pat l : Str) : Option Str :=
  if pat.isPrefixOf l then some (l.drop pat.length) else none

/-- Consume a nonempty greedy run of characters satisfying p (regex X+). -/
def takeRun (p : Char → Bool) (l : Str) : Option (Str × Str) :=
  let run := l.takeWhile p
  if run.isEmpty then none else some (run, l.dropWhile p)

/-- Match for the leading -?\d+(?:\.\d+) of the learn-output patterns,
returning the captured characters and the remainder. -/
def matchFloatTok (l : Str) : Option (Str × Str) :=
  let core : Str → Option (Str × Str) := fun u => do
    let (ip, r1) ← takeRun isDig u
    let r2 ← expectChar '.' r1
    let (fp, r3) ← takeRun isDig r2
    some (ip ++ '.' :: fp, r3)
  match l with
  | '-' :: rest => (core rest).map (fun g => ('-' :: g.1, g.2))
  | _ => core l

/-- Full-line match of the prior-weight pattern
^(-?\d+(?:\.\d+))\s+!(\w+)\([^\)]+\)\s+\/\/(\d+\.0)$ returning the three
captured groups (float, relation name, trailing index). -/
def matchPrior (l : Str) : Option (Str × Str × Str) := do
  let (g1, r1) ← matchFloatTok l
  let (_, r2) ← takeRun isSpc r1
  let r3 ← expectChar '!' r2
  let (g2, r4) ← takeRun isWord r3
  let r5 ← expectChar '(' r4
  let (_, r6) ← takeRun (fun c => c ≠ ')') r5
  let r7 ← expectChar ')' r6
  let (_, r8) ← takeRun isSpc r7
  let r9 ← expectTok (str ("//")) r8
  let (d, r10) ← takeRun isDig r9
  let r11 ← expectTok (str (".0")) r10
  if r11 = [] then some (g1, g2, d ++ str (".0")) else none

/-- Full-line match of the soft-rule pattern
^(-?\d+(?:\.\d+))\s+.+?\s+\/\/(\d+\.0)$ returning the captured float and
trailing index group.  The lazy middle is resolved by anchoring the index
group at the end of the line. -/
def matchSoft (l : Str) : Option (Str × Str) := do
  let (g1, r1) ← matchFloatTok l
  match r1 with
  | w1 :: rest =>
    if isSpc w1 then do
      let rev := rest.reverse
      let rv1 ← expectTok (str ("0.")) rev
      let (dRev, rv2) ← takeRun isDig rv1
      let rv3 ← expectTok (str ("//")) rv2
      match rv3 with
      | w2 :: midRev =>
          if isSpc w2 ∧ midRev ≠ [] then some (g1, dRev.reverse ++ str (".0"))
          else none
      | [] => none
    else none
  | [] => none

/-- Suffix match of the hard-rule pattern \ \. \/\/(\d+\.0)hardfixed$
returning the captured index group. -/
def matchHard (l : Str) : Option Str := do
  let rev := l.reverse
  let r1 ← expectTok (str (".0hardfixed")).reverse rev
  let (dRev, r2) ← takeRun isDig r1
  let _ ← expectTok (str (" . //")).reverse r2
  some (dRev.reverse ++ str (".0"))

/-- Match of the inequality-guard pattern ,\s*\(\w+\s*!=\s*\w+\) after its
leading comma, returning the remainder of the line past the match. -/
def matchGuardTail (rest : Str) : Option Str := do
  let r2 := rest.dropWhile isSpc
  let r3 ← expectChar '(' r2
  let (_, r4) ← takeRun isWord r3
  let r5 := r4.dropWhile isSpc
  let r6 ← expectTok (str ("!=")) r5
  let r7 := r6.dropWhile isSpc
  let (_, r8) ← takeRun isWord r7
  expectChar ')' r8

theorem expectChar_length {c : Char} {l r : Str} (h : expectChar c l = some r) :
    r.length < l.length := by
  cases l with
  | nil => simp [expectChar] at h
  | cons x rest =>
    simp only [expectChar] at h
    split at h
    · cases h
      simp
    · cases h

theorem expectTok_length {pat l r : Str} (h : expectTok pat l = some r) :
    r.length ≤ l.length := by
  simp only [expectTok] at h
  split at h
  · cases h
    simp
  · cases h

theorem dropWhile_len_le (p : Char → Bool) (l : Str) :
    (l.dropWhile p).length ≤ l.length :=
  (List.dropWhile_sublist p).length_le

theorem takeRun_length {p : Char → Bool} {l g r : Str}
    (h : takeRun p l = some (g, r)) : r.length ≤ l.length := by
  simp only [takeRun] at h
  split at h
  · cases h
  · cases h
    exact dropWhile_len_le p l

theorem matchGuardTail_length {rest r : Str} (h : matchGuardTail rest = some r) :
    r.length ≤ rest.length := by
  simp only [matchGuardTail, Option.bind_eq_bind, Option.bind_eq_some] at h
  obtain ⟨r3, h3, ⟨g4, r4⟩, h4, r6, h6, ⟨g8, r8⟩, h8, h9⟩ := h
  have l3 := expectChar_length h3
  have l4 := takeRun_length h4
  have l6 := expectTok_length h6
  have l8 := takeRun_length h8
  have l9 := expectChar_length h9
  have d2 := dropWhile_len_le isSpc rest
  have d5 := dropWhile_len_le isSpc r4
  have d7 := dropWhile_len_le isSpc r6
  simp only at l6 l8 l9
  omega

/-- Python re.sub of the guard pattern ,\s*\(\w+\s*!=\s*\w+\) with the
empty replacement: scan left to right, drop every non-overlapping match. -/
def subGuard : Str → Str
  | [] => []
  | c :: rest =>
    if h : c = ',' then
      match hm : matchGuardTail rest with
      | some r => subGuard r
      | none => c :: subGuard rest
    else c :: subGuard rest
termination_by l => l.length
decreasing_by
  · have := matchGuardTail_length hm
    simp only [List.length_cons]
    omega
  · simp only [List.length_cons]
    omega
  · simp only [List.length_cons]
    omega

/-- Tuffy._find_relation: first relation whose name matches
case-insensitively, None otherwise. -/
def findRelation (relations : List Relation) (name : Str) : Option Relation :=
  relations.find? (fun r => lowerS r.name = lowerS name)

def markerStr : Str := str ("WEIGHT OF LAST ITERATION")

structure PWState where
  skip : Bool
  weights : List WeightVal
  relations : List Relation
deriving DecidableEq

def priorLookupErrMsg (rn l : Str) : Str :=
  str ("Could not find relation (") ++ rn ++ str (") found in prior: ") ++ l

def parseFailMsg (l : Str) : Str :=
  str ("Could not parse learned Tuffy weight from output rule: ") ++ l

/-- Relation map membership test: relation_map keys are the upper-cased
relation names. -/
def relMapHas (relations : List Relation) (rn : Str) : Bool :=
  relations.any (fun r => upperS r.name = rn)

/-- relation_map[rn].set_negative_prior_weight(w): the dict maps an
upper-cased name to the last relation bearing it, so the last matching
relation is the one mutated. -/
def setPriorLast (relations : List Relation) (rn : Str) (w : Rat) : List Relation :=
  match relations with
  | [] => []
  | r :: rest =>
    if relMapHas rest rn then r :: setPriorLast rest rn w
    else if upperS r.name = rn then r.setNegPrior w :: rest
    else r :: setPriorLast rest rn w

/-- One iteration of the Tuffy._parse_weights line loop. -/
def parseWeightsStep (st : PWState) (line : Str) : Except PyErr PWState :=
  if containsSub markerStr line then .ok { st with skip := false }
  else if st.skip then .ok st
  else
    let l := pyStrip line
    if l = [] then .ok st
    else
      match matchPrior l with
      | some (g1, g2, _) =>
          let rn := upperS g2
          if relMapHas st.relations rn then
            .ok { st with relations := setPriorLast st.relations rn (ratOfFloatChars g1) }
          else
            .error (.valueError (priorLookupErrMsg rn l))
      | none =>
      match matchSoft l with
      | some (g1, d) => do
          let idx : Int := (natD (d.takeWhile isDig) : Int) - 1
          let ws ← pySet st.weights idx (.soft (ratOfFloatChars g1))
          .ok { st with weights := ws }
      | none =>
      match matchHard l with
      | some d => do
          let idx : Int := (natD (d.takeWhile isDig) : Int) - 1
          let ws ← pySet st.weights idx .hard
          .ok { st with weights := ws }
      | none => .error (.valueError (parseFailMsg l))

def runLines (st : PWState) : List Str → Except PyErr PWState
  | [] => .ok st
  | l :: ls =>
    match parseWeightsStep st l with
    | .ok st' => runLines st' ls
    | .error e => .error e

/-- Tuffy._parse_weights: returns the per-rule weight cells together with
the relations as mutated by prior lines. -/
def parseWeights (relations : List Relation) (nRules : Nat) (lines : List Str) :
    Except PyErr (List WeightVal × List Relation) :=
  match runLines { skip := true, weights := List.replicate nRules .unset,
                   relations := relations } lines with
  | .ok st => .ok (st.weights, st.relations)
  | .error e => .error e

/-- Tuffy.learn: parse the learned weights and write slot i back onto
rule i (the loop for i in range(len(rules)): rules[i].set_weight(weights[i]),
expressed as a zip since the weight list has one cell per rule). -/
def learnTuffy (relations : List Relation) (rules : List Rule) (lines : List Str) :
    Except PyErr (List Rule × List Relation) :=
  match parseWeights relations rules.length lines with
  | .ok (ws, rels') => .ok (List.zipWith Rule.set_weight rules ws, rels')
  | .error e => .error e

abbrev RMap := List (Option Relation × List (List Str × Rat))

/-- One iteration of the Tuffy._read_results line loop. -/
def readResultsStep (relations : List Relation) (hasValue : Bool) (results : RMap)
    (line : Str) : Except PyErr RMap :=
  let l := pyStrip line
  if l = [] then .ok results
  else
    let parts := pySplit (str ("\x09")) l
    let atom := parts.headD []
    let value? : Except PyErr Rat :=
      if hasValue then
        match parts.get? 1 with
        | none => .error (.indexError (str ("list index out of range")))
        | some s =>
          match pyFloat s with
          | some v => .ok v
          | none => .error (.valueError (str ("could not convert string to float: ") ++ s))
      else .ok 1
    match value? with
    | .error e => .error e
    | .ok value =>
      let (predicate, argPart) := pyPartition '(' atom
      let relation := findRelation relations predicate
      let argumentsKey := pySplit (str (", ")) ((rstripAll ')' argPart).filter (fun c => c ≠ '"'))
      let bucket := (alGet results relation).getD []
      .ok (alSet results relation (alSet bucket argumentsKey value))

def runResults (relations : List Relation) (hasValue : Bool) :
    RMap → List Str → Except PyErr RMap
  | m, [] => .ok m
  | m, l :: ls =>
    match readResultsStep relations hasValue m l with
    | .ok m' => runResults relations hasValue m' ls
    | .error e => .error e

/-- Tuffy._read_results. -/
def readResults (relations : List Relation) (lines : List Str)
    (hasValue : Bool) : Except PyErr RMap :=
  runResults relations hasValue [] lines

def solveRows (raw : RMap) (r : Relation) :
    List (List Str) → Except PyErr (List (List Str × Rat))
  | [] => .ok []
  | row :: rest => do
    let key := row.take r.arity
    let bucket ←
      match alGet raw (some r) with
      | some m => Except.ok m
      | none => Except.error (.keyError r.name)
    let value := (alGet bucket key).getD 0
    let tail ← solveRows raw r rest
    .ok ((key, value) :: tail)

def solveGo (raw : RMap) : List Relation → Except PyErr (List (Relation × List (List Str × Rat)))
  | [] => .ok []
  | r :: rest =>
    if r.unobservedData = [] then solveGo raw rest
    else do
      let rows ← solveRows raw r r.unobservedData
      let tail ← solveGo raw rest
      .ok ((r, rows) :: tail)

/-- Tuffy.solve: read inference results (without a value column) and build,
for every relation with unobserved rows, one row per query row: the first
arity columns of the query row followed by the parsed value for that key,
or 0.0 when the key is absent from the parsed results.  A relation with no
atom at all in the engine output raises KeyError at raw_results[relation]. -/
def solveTuffy (relations : List Relation) (outputLines : List Str) :
    Except PyErr (List (Relation × List (List Str × Rat))) := do
  let raw ← readResults relations outputLines false
  solveGo raw relations

/-- The rule-text rewriting before the case transform (lines 205-213 of the
adapter): logical AND to comma, arrows normalized to =>, inequality guards
stripped, then the blanket lowercase pass. -/
def lowStage (text : Str) : Str :=
  let r1 := replaceAll (str ("&")) (str (",")) text
  let r2 := replaceAll (str ("->")) (str ("=>")) r1
  let r3 := replaceAll (str (" = ")) (str (" => ")) r2
  let r4 := subGuard r3
  lowerS r4

/-- Full rule-text normalization: the rewriting above followed by the
per-relation re-casing pass, in relation declaration order (each relation
name, lowercased, replaced by its canonical casing). -/
def normText (relations : List Relation) (text : Str) : Str :=
  relations.foldl (fun acc rel => replaceAll (lowerS rel.name) rel.name acc)
    (lowStage text)

/-- One relation declaration line of the program: name(type1, type2, ...),
prefixed with * when the relation is observed. -/
def declLine (r : Relation) : Str :=
  let predicate := r.name ++ '(' :: joinStr (str (", ")) r.variableTypes ++ str (")")
  if r.isObserved then '*' :: predicate else predicate

/-- One rule line of the program: "%f %s" when weighted, "%s ." when hard. -/
def ruleLine (relations : List Relation) (ru : Rule) : Str :=
  let rtext := normText relations ru.text
  if ru.is_weighted then formatF ru.weightValue ++ ' ' :: rtext
  else rtext ++ str (" .")

def asciiLowercase : Str := str ("abcdefghijklmnopqrstuvwxyz")

/-- One prior rule line: "%f !name(a, b, ...)" with
string.ascii_lowercase[0:arity] as the variables. -/
def priorRuleLine (r : Relation) (w : Rat) : Str :=
  let arguments := joinStr (str (", ")) ((asciiLowercase.take r.arity).map (fun c => [c]))
  formatF w ++ str (" !") ++ r.name ++ str ("(") ++ arguments ++ str (")")

/-- Tuffy._write_program: declaration lines (accumulating has_prior),
a blank line, one line per rule, and, when any relation carries a negative
prior weight, a further blank line and the prior rule lines. -/
def writeProgram (relations : List Relation) (rules : List Rule) : List Str :=
  let start : List Str × Bool := ([], false)
  let (decls, hasPrior) := relations.foldl
    (fun acc r => (acc.1 ++ [declLine r], acc.2 || r.negativePriorWeight.isSome)) start
  let body := decls ++ [[]] ++ rules.map (ruleLine relations)
  if hasPrior then
    body ++ [[]] ++ relations.filterMap
      (fun r => r.negativePriorWeight.map (priorRuleLine r))
  else body

def underscoreArg (a : Str) : Str := replaceAll (str (" ")) (str ("_")) a

/-- One evidence line for an observed row: arguments with spaces replaced
by underscores, the first arity columns joined, and, when the row carries
an extra trailing column, that column parsed as a float and prefixed. -/
def evidenceLine (r : Relation) (row : List Str) : Except PyErr Str :=
  let row' := row.map underscoreArg
  let line := r.name ++ '(' :: joinStr (str (", ")) (row'.take r.arity) ++ str (")")
  if row'.length > r.arity then
    match pyFloat (row'.getLastD []) with
    | some w => .ok (formatF w ++ ' ' :: line)
    | none => .error (.valueError ((str ("could not convert string to float: ")) ++ row'.getLastD []))
  else .ok line

def evidenceRows (r : Relation) : List (List Str) → Except PyErr (List Str)
  | [] => .ok []
  | row :: rest => do
    let line ← evidenceLine r row
    let tail ← evidenceRows r rest
    .ok (line :: tail)

/-- Tuffy._write_evidence. -/
def writeEvidence : List Relation → Except PyErr (List Str)
  | [] => .ok []
  | r :: rest => do
    let here ← if r.observedData = [] then pure [] else evidenceRows r r.observedData
    let tail ← writeEvidence rest
    .ok (here ++ tail)

/-- One query line for an unobserved row: arguments with spaces replaced by
underscores, the first arity columns joined. -/
def queryLine (r : Relation) (row : List Str) : Str :=
  let row' := row.map underscoreArg
  r.name ++ '(' :: joinStr (str (", ")) (row'.take r.arity) ++ str (")")

/-- Tuffy._write_query. -/
def writeQuery (relations : List Relation) : List Str :=
  relations.flatMap (fun r =>
    if r.unobservedData = [] then [] else r.unobservedData.map (queryLine r))

/-- Spec wording: a declaration line is name(type1, type2, ...), prefixed
with the marker character exactly when the relation is observed. -/
def specDeclLine (r : Relation) : Str :=
  (if r.isObserved then str ("*") else []) ++ r.name ++ str ("(") ++
    joinStr (str (", ")) r.variableTypes ++ str (")")

/-- Spec wording: a rule line is "<weight> <rule-text>" when the rule is
weighted and "<rule-text> ." when it is hard. -/
def specRuleLine (relations : List Relation) (ru : Rule) : Str :=
  if ru.is_weighted then formatF ru.weightValue ++ str (" ") ++ normText relations ru.text
  else normText relations ru.text ++ str (" .")

/-- Spec wording (amended): a prior line is "<weight> !<name>(<vars>)" with
min(arity, 26) successive letters of the alphabet as variables. -/
def specPriorLine (r : Relation) : Option Str :=
  r.negativePriorWeight.map (fun w =>
    formatF w ++ str (" !") ++ r.name ++ str ("(") ++
      joinStr (str (", ")) ((asciiLowercase.take r.arity).map (fun c => [c])) ++ str (")"))

theorem declLine_eq_spec (r : Relation) : declLine r = specDeclLine r := by
  cases h : r.isObserved <;>
    simp [declLine, specDeclLine, h, str, joinStr]

theorem ruleLine_eq_spec (relations : List Relation) (ru : Rule) :
    ruleLine relations ru = specRuleLine relations ru := by
  cases h : ru.is_weighted <;>
    simp [ruleLine, specRuleLine, h, str]

theorem priorRuleLine_eq_spec (r : Relation) :
    r.negativePriorWeight.map (priorRuleLine r) = specPriorLine r := by
  cases h : r.negativePriorWeight <;>
    simp [priorRuleLine, specPriorLine, h, str]

theorem writeProgram_foldl (relations : List Relation) (init : List Str) (b : Bool) :
    relations.foldl
      (fun acc r => (acc.1 ++ [declLine r], acc.2 || r.negativePriorWeight.isSome))
      (init, b)
    = (init ++ relations.map declLine,
       b || relations.any (fun r => r.negativePriorWeight.isSome)) := by
  induction relations generalizing init b with
  | nil => simp
  | cons r rest ih =>
    simp [List.foldl_cons, ih, Bool.or_assoc]

/-- C8: the program writer emits, in order, one declaration line per
relation (marker-prefixed exactly when observed), one blank separator
line, and one line per rule in rule order ("<weight> <rule-text>" when
weighted, "<rule-text> ." when hard), followed only by the prior
section. -/
theorem tuffy_program_layout (relations : List Relation) (rules : List Rule) :
    ∃ rest, writeProgram relations rules =
      relations.map specDeclLine ++ [[]] ++ rules.map (specRuleLine relations) ++ rest := by
  unfold writeProgram
  dsimp only
  rw [writeProgram_foldl]
  simp only [List.nil_append, Bool.false_or]
  have hd : relations.map declLine = relations.map specDeclLine :=
    List.map_congr_left (fun r _ => declLine_eq_spec r)
  have hr : rules.map (ruleLine relations) = rules.map (specRuleLine relations) :=
    List.map_congr_left (fun ru _ => ruleLine_eq_spec relations ru)
  split
  · exact ⟨[[]] ++ relations.filterMap
        (fun r => r.negativePriorWeight.map (priorRuleLine r)),
      by rw [hd, hr]; simp⟩
  · exact ⟨[], by rw [hd, hr]; simp⟩

/-- C9 (amended): the program writer appends the prior section if and only
if some relation carries a negative prior weight: a blank line and one
line "<weight> !<name>(<vars>)" per such relation, where vars are the
first min(arity, 26) letters of the alphabet. -/
theorem tuffy_program_prior_section (relations : List Relation) (rules : List Rule) :
    writeProgram relations rules =
      relations.map specDeclLine ++ [[]] ++ rules.map (specRuleLine relations) ++
        (if relations.any (fun r => r.negativePriorWeight.isSome)
         then [[]] ++ relations.filterMap specPriorLine
         else []) := by
  unfold writeProgram
  dsimp only
  rw [writeProgram_foldl]
  simp only [List.nil_append, Bool.false_or]
  have hd : relations.map declLine = relations.map specDeclLine :=
    List.map_congr_left (fun r _ => declLine_eq_spec r)
  have hr : rules.map (ruleLine relations) = rules.map (specRuleLine relations) :=
    List.map_congr_left (fun ru _ => ruleLine_eq_spec relations ru)
  have hp : relations.filterMap (fun r => r.negativePriorWeight.map (priorRuleLine r))
      = relations.filterMap specPriorLine :=
    List.filterMap_congr (fun r _ => priorRuleLine_eq_spec r)
  split
  · rw [hd, hr, hp]
    simp
  · rw [hd, hr]
    simp

/-- An arity-27 relation carrying a negative prior weight, for the prior
variable-count counterexample. -/
def relArity27 : Relation :=
  { name := str ("R"), arity := 27,
    variableTypes := List.replicate 27 (str ("T")),
    observedData := [], unobservedData := [], isObserved := false,
    negativePriorWeight := some (3 / 2) }

/-- C9 counterexample: the prior line of an arity-27 relation lists only
the 26 letters of the alphabet, not 27 distinct variables as claimed
(string.ascii_lowercase[0:27] truncates at 26). -/
theorem tuffy_prior_arity27_counterexample :
    relArity27.arity = 27 ∧
    (writeProgram [relArity27] []).getLastD [] =
      str ("1.500000 !R(a, b, c, d, e, f, g, h, i, j, k, l, m, n, o, p, q, r, s, t, u, v, w, x, y, z)") ∧
    (pySplit (str (", "))
      (rstripAll ')' (pyPartition '(' ((writeProgram [relArity27] []).getLastD [])).2)).length
      = 26 := by
  refine ⟨rfl, ?_, ?_⟩ <;> with_unfolding_all decide

/-- Spec wording: an evidence line takes the first arity columns, replaces
spaces inside the arguments by underscores, and, exactly when the row has
an extra trailing column, parses that column as a numeric soft weight and
prefixes it. -/
def specEvidenceLine (r : Relation) (row : List Str) : Except PyErr Str :=
  let args := (row.take r.arity).map underscoreArg
  let line := r.name ++ str ("(") ++ joinStr (str (", ")) args ++ str (")")
  if row.length > r.arity then
    match pyFloat (underscoreArg (row.getLastD [])) with
    | some w => .ok (formatF w ++ str (" ") ++ line)
    | none => .error (.valueError ((str ("could not convert string to float: ")) ++
        underscoreArg (row.getLastD [])))
  else .ok line

def specEvidence : List Relation → Except PyErr (List Str)
  | [] => .ok []
  | r :: rest => do
    let here ← r.observedData.mapM (specEvidenceLine r)
    let tail ← specEvidence rest
    .ok (here ++ tail)

/-- Spec wording: a query line takes the first arity columns and replaces
spaces inside the arguments by underscores. -/
def specQueryLine (r : Relation) (row : List Str) : Str :=
  r.name ++ str ("(") ++ joinStr (str (", ")) ((row.take r.arity).map underscoreArg) ++ str (")")

def specQuery (relations : List Relation) : List Str :=
  relations.flatMap (fun r => r.unobservedData.map (specQueryLine r))

theorem getLastD_map_underscore (row : List Str) :
    (row.map underscoreArg).getLastD [] = underscoreArg (row.getLastD []) := by
  cases row with
  | nil =>
    simp [underscoreArg, replaceAll, str, replaceGo]
  | cons a rest =>
    rw [List.getLastD_eq_getLast?, List.getLastD_eq_getLast?, List.getLast?_map]
    cases h : (a :: rest).getLast? with
    | none => simp at h
    | some x => simp

theorem evidenceLine_eq_spec (r : Relation) (row : List Str) :
    evidenceLine r row = specEvidenceLine r row := by
  unfold evidenceLine specEvidenceLine
  dsimp only
  rw [getLastD_map_underscore, List.length_map, ← List.map_take]
  simp [str, List.append_assoc]

theorem evidenceRows_eq_mapM (r : Relation) (rows : List (List Str)) :
    evidenceRows r rows = rows.mapM (specEvidenceLine r) := by
  induction rows with
  | nil => rfl
  | cons row rest ih =>
    simp only [evidenceRows, List.mapM_cons, ih, evidenceLine_eq_spec]
    rfl

theorem queryLine_eq_spec (r : Relation) (row : List Str) :
    queryLine r row = specQueryLine r row := by
  unfold queryLine specQueryLine
  dsimp only
  rw [← List.map_take]
  simp [str, List.append_assoc]

/-- C7: the evidence writer emits one line per observed row and the query
writer one line per unobserved row, of the form name(arg0, ..., argN-1)
over the first arity columns with spaces in arguments replaced by
underscores, and only evidence rows with an extra trailing column get that
column parsed as a numeric soft weight and prefixed to the line. -/
theorem mapM_line_nil (r : Relation) :
    ([] : List (List Str)).mapM (specEvidenceLine r) = pure [] := rfl

theorem tuffy_evidence_query_lines (relations : List Relation) :
    writeEvidence relations = specEvidence relations ∧
    writeQuery relations = specQuery relations := by
  constructor
  · induction relations with
    | nil => rfl
    | cons r rest ih =>
      simp only [writeEvidence, specEvidence, ih, evidenceRows_eq_mapM]
      cases h : r.observedData with
      | nil => rw [mapM_line_nil]; simp
      | cons a b => simp
  · induction relations with
    | nil => rfl
    | cons r rest ih =>
      simp only [writeQuery, specQuery, List.flatMap_cons] at ih ⊢
      rw [ih]
      cases h : r.unobservedData with
      | nil => simp
      | cons a b =>
        rw [if_neg (List.cons_ne_nil a b),
          List.map_congr_left (fun row _ => queryLine_eq_spec r row)]

theorem containsSub_cons (pat : Str) (c : Char) (rest : Str) :
    containsSub pat (c :: rest) = (pat.isPrefixOf (c :: rest) || containsSub pat rest) := by
  simp [containsSub, List.tails_cons]

theorem replaceGo_nil (p0 : Char) (pt repl : Str) :
    replaceGo p0 pt repl [] = [] := by
  rw [replaceGo.eq_def]

theorem replaceGo_cons (p0 : Char) (pt repl : Str) (c : Char) (rest : Str) :
    replaceGo p0 pt repl (c :: rest) =
      if (p0 :: pt).isPrefixOf (c :: rest) then
        repl ++ replaceGo p0 pt repl (rest.drop pt.length)
      else c :: replaceGo p0 pt repl rest := by
  rw [replaceGo.eq_def]

theorem replaceAll_of_not_contains {pat : Str} (repl : Str) {l : Str}
    (h : containsSub pat l = false) : replaceAll pat repl l = l := by
  match pat with
  | [] => rfl
  | p0 :: pt =>
    induction l with
    | nil => simp [replaceAll, replaceGo_nil]
    | cons c rest ih =>
      rw [containsSub_cons] at h
      simp only [Bool.or_eq_false_iff] at h
      simp only [replaceAll] at ih ⊢
      rw [replaceGo_cons]
      simp only [h.1, Bool.false_eq_true, if_false]
      rw [ih h.2]

theorem replaceGo_append {p0 : Char} {pt : Str} (repl : Str) (a b : Str)
    (hno : ∀ i < a.length, (p0 :: pt).isPrefixOf ((a ++ (p0 :: pt) ++ b).drop i) = false) :
    replaceGo p0 pt repl (a ++ (p0 :: pt) ++ b)
      = a ++ repl ++ replaceGo p0 pt repl b := by
  induction a with
  | nil =>
    simp only [List.nil_append, List.cons_append]
    rw [replaceGo_cons]
    have hpre : (p0 :: pt).isPrefixOf (p0 :: (pt ++ b)) = true := by
      rw [List.isPrefixOf_iff_prefix]
      exact ⟨b, by simp⟩
    rw [hpre]
    simp [List.drop_left]
  | cons c a' ih =>
    have h0 := hno 0 (by simp)
    simp only [List.drop_zero, List.cons_append] at h0
    rw [List.cons_append, List.cons_append, replaceGo_cons]
    simp only [h0, Bool.false_eq_true, if_false]
    have hrec := ih (fun i hi => by
      have hx := hno (i + 1) (by simp only [List.length_cons]; omega)
      simpa using hx)
    simp only [List.cons_append] at hrec ⊢
    rw [hrec]

theorem replaceAll_append {pat : Str} (repl : Str) (a b : Str)
    (hpat : pat ≠ [])
    (hno : ∀ i < a.length, pat.isPrefixOf ((a ++ pat ++ b).drop i) = false)
    (hnob : containsSub pat b = false) :
    replaceAll pat repl (a ++ pat ++ b) = a ++ repl ++ b := by
  match pat with
  | [] => exact absurd rfl hpat
  | p0 :: pt =>
    show replaceGo p0 pt repl (a ++ (p0 :: pt) ++ b) = a ++ repl ++ b
    rw [replaceGo_append repl a b hno]
    have : replaceGo p0 pt repl b = b := replaceAll_of_not_contains repl hnob
    rw [this]

theorem foldl_recase_id (xs : List Relation) (s : Str)
    (h : ∀ x ∈ xs, containsSub (lowerS x.name) s = false) :
    xs.foldl (fun acc rel => replaceAll (lowerS rel.name) rel.name acc) s = s := by
  induction xs with
  | nil => rfl
  | cons x rest ih =>
    rw [List.foldl_cons, replaceAll_of_not_contains x.name (h x (by simp))]
    exact ih (fun y hy => h y (by simp [hy]))

/-- C5 (amended): the emitted rule text is the input text with the
logical-AND token replaced by comma, the arrows and bare equality
normalized to the engine arrow, inequality-guard clauses removed, the
whole text lowercased, and then the per-relation re-casing pass applied in
declaration order.  The pass is NOT longest-match-safe in general; this
theorem characterizes it where the replaced occurrence does not interfere
with the other relations: an occurrence of a relation name in the
lowercased text is restored to its canonical casing provided no
earlier-declared relation name occurs anywhere in the text, the name has
no earlier overlapping occurrence, and no later-declared relation name
occurs in the re-cased text. -/
theorem tuffy_rule_recase_amended
    (pre post : List Relation) (r : Relation) (t a b : Str)
    (hname : lowerS r.name ≠ [])
    (hsplit : lowStage t = a ++ lowerS r.name ++ b)
    (hpre : ∀ rj ∈ pre, containsSub (lowerS rj.name) (a ++ lowerS r.name ++ b) = false)
    (hnoearly : ∀ i < a.length,
        (lowerS r.name).isPrefixOf ((a ++ lowerS r.name ++ b).drop i) = false)
    (hnob : containsSub (lowerS r.name) b = false)
    (hpost : ∀ rj ∈ post, containsSub (lowerS rj.name) (a ++ r.name ++ b) = false) :
    normText (pre ++ r :: post) t = a ++ r.name ++ b := by
  unfold normText
  rw [hsplit, List.foldl_append, foldl_recase_id pre _ hpre, List.foldl_cons,
    replaceAll_append r.name a b hname hnoearly hnob,
    foldl_recase_id post _ hpost]

/-- The two relations of the re-casing counterexample: Foo is declared
before foobar and the lowercased name of Foo is a prefix of the name of
foobar. -/
def relFooCE : Relation :=
  { name := str ("Foo"), arity := 1, variableTypes := [str ("T")],
    observedData := [], unobservedData := [], isObserved := false,
    negativePriorWeight := none }

def relFoobarCE : Relation :=
  { name := str ("foobar"), arity := 1, variableTypes := [str ("T")],
    observedData := [], unobservedData := [], isObserved := false,
    negativePriorWeight := none }

/-- C5 counterexample: with relations Foo and foobar declared in that
order, the hard rule with text foobar is emitted as Foobar . instead of
foobar .: the occurrence of relation name foobar is corrupted by the
earlier re-casing of Foo, so the pass is not longest-match-safe. -/
theorem tuffy_rule_recase_counterexample :
    writeProgram [relFooCE, relFoobarCE] [{ text := str ("foobar"), weight := .hard }]
      = [str ("Foo(T)"), str ("foobar(T)"), [], str ("Foobar .")] ∧
    str ("Foobar .") ≠ str ("foobar .") := by
  constructor
  · with_unfolding_all decide
  · with_unfolding_all decide

/-- Witness for the amended C5 theorem: a single relation Smokes and the
rule text Smokes(A) -> Cancer(A); the relation-name occurrence in the
lowercased text is restored to canonical casing. -/
theorem tuffy_rule_recase_amended_witness :
    normText [{ name := str ("Smokes"), arity := 1, variableTypes := [str ("P")],
                observedData := [], unobservedData := [], isObserved := false,
                negativePriorWeight := none }] (str ("Smokes(A) -> Cancer(A)"))
      = str ("Smokes(a) => cancer(a)") := by
  have h := tuffy_rule_recase_amended [] []
    { name := str ("Smokes"), arity := 1, variableTypes := [str ("P")],
      observedData := [], unobservedData := [], isObserved := false,
      negativePriorWeight := none }
    (str ("Smokes(A) -> Cancer(A)")) [] (str ("(a) => cancer(a)"))
    (by decide) (by with_unfolding_all decide)
    (by intro rj hj; cases hj)
    (by decide)
    (by with_unfolding_all decide)
    (by intro rj hj; cases hj)
  exact h.trans (by with_unfolding_all decide)

theorem alGet_alSet [DecidableEq κ] (m : List (κ × ν)) (k k' : κ) (v : ν) :
    alGet (alSet m k v) k' = if k' = k then some v else alGet m k' := by
  induction m with
  | nil =>
    simp [alSet, alGet, eq_comm]
  | cons p t ih =>
    obtain ⟨k0, v0⟩ := p
    by_cases h0 : k0 = k
    · subst h0
      simp only [alSet, if_pos rfl, alGet]
      by_cases h : k' = k0
      · simp [h]
      · simp [h, Ne.symm h]
    · simp only [alSet, if_neg h0, alGet, ih]
      by_cases h1 : k0 = k'
      · have h2 : ¬ k' = k := fun hh => h0 (h1.trans hh)
        simp [h1, h2]
      · simp [h1]

/-- The predicate text of an inference output line: the part of the first
tab field before the opening parenthesis. -/
def predOf (l : Str) : Str :=
  (pyPartition '(' ((pySplit (str ("\x09")) (pyStrip l)).headD [])).1

/-- A line is kept when blank or when its predicate resolves to a known
relation. -/
def keepLine (relations : List Relation) (l : Str) : Bool :=
  (pyStrip l).isEmpty || (findRelation relations (predOf l)).isSome

/-- The bucket a parsed-results value holds for a relation, none when the
parse failed. -/
def resGet (e : Except PyErr RMap) (r : Relation) : Option (List (List Str × Rat)) :=
  match e with
  | .ok m => alGet m (some r)
  | .error _ => none

/-- The arguments key of an inference output line. -/
def argsOf (l : Str) : List Str :=
  pySplit (str (", "))
    ((rstripAll ')' (pyPartition '(' ((pySplit (str ("\x09")) (pyStrip l)).headD [])).2).filter
      (fun c => c ≠ '"'))

theorem readResultsStep_false (relations : List Relation) (m : RMap) (l : Str) :
    readResultsStep relations false m l =
      if pyStrip l = [] then .ok m
      else
        .ok (alSet m (findRelation relations (predOf l))
          (alSet ((alGet m (findRelation relations (predOf l))).getD []) (argsOf l) 1)) := by
  unfold readResultsStep predOf argsOf pyPartition
  dsimp only
  split
  · rfl
  · rfl

theorem step_false_unmatched (relations : List Relation) (m : RMap) (l : Str)
    (hk : keepLine relations l = false) :
    ∃ m', readResultsStep relations false m l = .ok m' ∧
      ∀ r ∈ relations, alGet m' (some r) = alGet m (some r) := by
  rw [readResultsStep_false]
  simp only [keepLine, Bool.or_eq_false_iff] at hk
  obtain ⟨h1, h2⟩ := hk
  have hne : ¬(pyStrip l = []) := by
    intro hh
    rw [hh] at h1
    simp at h1
  have hnone : findRelation relations (predOf l) = none := by
    cases hf : findRelation relations (predOf l) with
    | none => rfl
    | some r0 => rw [hf] at h2; simp at h2
  rw [if_neg hne, hnone]
  refine ⟨_, rfl, ?_⟩
  intro r _
  rw [alGet_alSet]
  simp

theorem step_false_matched (relations : List Relation) (m1 m2 : RMap) (l : Str)
    (hk : keepLine relations l = true)
    (hinv : ∀ r ∈ relations, alGet m1 (some r) = alGet m2 (some r)) :
    ∃ m1' m2', readResultsStep relations false m1 l = .ok m1' ∧
      readResultsStep relations false m2 l = .ok m2' ∧
      ∀ r ∈ relations, alGet m1' (some r) = alGet m2' (some r) := by
  rw [readResultsStep_false, readResultsStep_false]
  by_cases hb : pyStrip l = []
  · rw [if_pos hb, if_pos hb]
    exact ⟨m1, m2, rfl, rfl, hinv⟩
  · rw [if_neg hb, if_neg hb]
    have hsome : (findRelation relations (predOf l)).isSome = true := by
      simp only [keepLine, Bool.or_eq_true] at hk
      rcases hk with hk | hk
      · exact absurd (List.isEmpty_iff.mp hk) hb
      · exact hk
    obtain ⟨r0, hr0⟩ := Option.isSome_iff_exists.mp hsome
    have hmem : r0 ∈ relations := List.mem_of_find?_eq_some hr0
    rw [hr0]
    have hbucket : (alGet m1 (some r0)).getD [] = (alGet m2 (some r0)).getD [] := by
      rw [hinv r0 hmem]
    rw [hbucket]
    refine ⟨_, _, rfl, rfl, ?_⟩
    intro r hr
    rw [alGet_alSet, alGet_alSet]
    by_cases he : (some r : Option Relation) = some r0
    · rw [if_pos he, if_pos he]
    · rw [if_neg he, if_neg he]
      exact hinv r hr

theorem runResults_filter (relations : List Relation) (lines : List Str) :
    ∀ m1 m2 : RMap, (∀ r ∈ relations, alGet m1 (some r) = alGet m2 (some r)) →
    ∃ m1' m2', runResults relations false m1 lines = .ok m1' ∧
      runResults relations false m2 (lines.filter (keepLine relations)) = .ok m2' ∧
      ∀ r ∈ relations, alGet m1' (some r) = alGet m2' (some r) := by
  induction lines with
  | nil =>
    intro m1 m2 h
    exact ⟨m1, m2, rfl, rfl, h⟩
  | cons l ls ih =>
    intro m1 m2 h
    by_cases hk : keepLine relations l = true
    · obtain ⟨m1a, m2a, e1, e2, hinv⟩ := step_false_matched relations m1 m2 l hk h
      obtain ⟨m1', m2', f1, f2, hinv'⟩ := ih m1a m2a hinv
      refine ⟨m1', m2', ?_, ?_, hinv'⟩
      · simp only [runResults, e1]
        exact f1
      · simp only [List.filter_cons, hk, if_pos, runResults, e2]
        simpa using f2
    · have hk' : keepLine relations l = false := by
        cases hq : keepLine relations l
        · rfl
        · exact absurd hq hk
      obtain ⟨m1a, e1, hpres⟩ := step_false_unmatched relations m1 l hk'
      have h' : ∀ r ∈ relations, alGet m1a (some r) = alGet m2 (some r) := by
        intro r hr
        rw [hpres r hr]
        exact h r hr
      obtain ⟨m1', m2', f1, f2, hinv'⟩ := ih m1a m2 h'
      refine ⟨m1', m2', ?_, ?_, hinv'⟩
      · simp only [runResults, e1]
        exact f1
      · rw [List.filter_cons, if_neg (by simp [hk'])]
        exact f2

/-- C6: an inference-output atom whose predicate matches no known relation
is ignored without raising: parsing completes, and the entry of every
known relation is the same as when the unmatched lines are removed
entirely. -/
theorem tuffy_unknown_predicate_tolerance (relations : List Relation) (lines : List Str) :
    (readResults relations lines false).isOk = true ∧
    ∀ r ∈ relations,
      resGet (readResults relations lines false) r
        = resGet (readResults relations (lines.filter (keepLine relations)) false) r := by
  obtain ⟨m1', m2', e1, e2, hinv⟩ :=
    runResults_filter relations lines [] [] (fun r _ => rfl)
  unfold readResults
  rw [e1, e2]
  exact ⟨rfl, fun r hr => by simp [resGet, hinv r hr]⟩

/-- Relation and output lines for the C6 witness. -/
def relCityW : Relation :=
  { name := str ("City"), arity := 1, variableTypes := [str ("L")],
    observedData := [], unobservedData := [[str ("New_York")]], isObserved := false,
    negativePriorWeight := none }

def cityLinesW : List Str := [str ("Ghost(q)"), str ("City(New_York)")]

/-- Witness for C6 at a concrete input: relation City, engine output with
an atom for the unknown predicate Ghost; parsing succeeds and the City
bucket matches that of the output with the Ghost line removed. -/
theorem tuffy_unknown_predicate_tolerance_witness :
    (readResults [relCityW] cityLinesW false).isOk = true ∧
    resGet (readResults [relCityW] cityLinesW false) relCityW
      = resGet (readResults [relCityW] (cityLinesW.filter (keepLine [relCityW])) false)
          relCityW := by
  have h := tuffy_unknown_predicate_tolerance [relCityW] cityLinesW
  exact ⟨h.1, h.2 relCityW (by simp)⟩

theorem except_bind_ok {ε α β : Type} (x : α) (f : α → Except ε β) :
    (Except.ok x >>= f) = f x := rfl

theorem except_bind_err {ε α β : Type} (e : ε) (f : α → Except ε β) :
    ((Except.error e : Except ε α) >>= f) = .error e := rfl

theorem solveRows_ok (raw : RMap) (r : Relation) (m : List (List Str × Rat))
    (hm : alGet raw (some r) = some m) (rows : List (List Str)) :
    solveRows raw r rows = .ok (rows.map (fun row =>
      (row.take r.arity, (alGet m (row.take r.arity)).getD 0))) := by
  induction rows with
  | nil => rfl
  | cons row rest ih =>
    simp only [solveRows, hm, ih, List.map_cons, except_bind_ok]

theorem solveRows_missing (raw : RMap) (r : Relation)
    (hm : alGet raw (some r) = none) (rows : List (List Str)) (hne : rows ≠ []) :
    solveRows raw r rows = .error (.keyError r.name) := by
  cases rows with
  | nil => exact absurd rfl hne
  | cons row rest =>
    simp only [solveRows, hm, except_bind_err]

theorem solveRows_err_shape (raw : RMap) (r : Relation) (rows : List (List Str))
    (e : PyErr) (h : solveRows raw r rows = .error e) : e = .keyError r.name := by
  induction rows with
  | nil => simp [solveRows] at h
  | cons row rest ih =>
    simp only [solveRows] at h
    cases hm : alGet raw (some r) with
    | none =>
      rw [hm] at h
      simp only [except_bind_err] at h
      cases h
      rfl
    | some m =>
      rw [hm] at h
      simp only [except_bind_ok] at h
      cases ht : solveRows raw r rest with
      | error e' =>
        rw [ht] at h
        simp only [except_bind_err] at h
        cases h
        exact ih ht
      | ok tail =>
        rw [ht] at h
        simp only [except_bind_ok] at h
        cases h

theorem solveGo_ok_lookup (raw : RMap) (relations : List Relation)
    (res : List (Relation × List (List Str × Rat)))
    (h : solveGo raw relations = .ok res) (r : Relation) (hr : r ∈ relations)
    (hu : r.unobservedData ≠ []) (m : List (List Str × Rat))
    (hm : alGet raw (some r) = some m) :
    alGet res r = some (r.unobservedData.map (fun row =>
      (row.take r.arity, (alGet m (row.take r.arity)).getD 0))) := by
  induction relations generalizing res with
  | nil => cases hr
  | cons r0 rest ih =>
    by_cases h0 : r0.unobservedData = []
    · simp only [solveGo, if_pos h0] at h
      have hr' : r ∈ rest := by
        cases List.mem_cons.mp hr with
        | inl he => exact absurd (he ▸ h0) hu
        | inr hmem => exact hmem
      exact ih res h hr'
    · simp only [solveGo, if_neg h0] at h
      cases hrows : solveRows raw r0 r0.unobservedData with
      | error e =>
        rw [hrows, except_bind_err] at h
        cases h
      | ok rows0 =>
        rw [hrows, except_bind_ok] at h
        cases htail : solveGo raw rest with
        | error e =>
          rw [htail, except_bind_err] at h
          cases h
        | ok tail =>
          rw [htail, except_bind_ok] at h
          cases h
          by_cases he : r0 = r
          · subst he
            rw [solveRows_ok raw r0 m hm] at hrows
            cases hrows
            simp [alGet]
          · simp only [alGet, if_neg he]
            have hr' : r ∈ rest := by
              cases List.mem_cons.mp hr with
              | inl hh => exact absurd hh.symm he
              | inr hmem => exact hmem
            exact ih tail htail hr'

theorem solveGo_missing_err (raw : RMap) (relations : List Relation) (r : Relation)
    (hr : r ∈ relations) (hu : r.unobservedData ≠ [])
    (hm : alGet raw (some r) = none) :
    ∃ msg, solveGo raw relations = .error (.keyError msg) := by
  induction relations with
  | nil => cases hr
  | cons r0 rest ih =>
    by_cases h0 : r0.unobservedData = []
    · have hr' : r ∈ rest := by
        cases List.mem_cons.mp hr with
        | inl he => exact absurd (he ▸ h0) hu
        | inr hmem => exact hmem
      obtain ⟨msg, hmsg⟩ := ih hr'
      exact ⟨msg, by simp only [solveGo, if_pos h0]; exact hmsg⟩
    · by_cases he : r0 = r
      · subst he
        refine ⟨r0.name, ?_⟩
        simp only [solveGo, if_neg h0,
          solveRows_missing raw r0 hm r0.unobservedData h0, except_bind_err]
      · cases hrows : solveRows raw r0 r0.unobservedData with
        | error e =>
          have hsh := solveRows_err_shape raw r0 r0.unobservedData e hrows
          subst hsh
          exact ⟨r0.name, by
            simp only [solveGo, if_neg h0, hrows, except_bind_err]⟩
        | ok rows0 =>
          have hr' : r ∈ rest := by
            cases List.mem_cons.mp hr with
            | inl hh => exact absurd hh.symm he
            | inr hmem => exact hmem
          obtain ⟨msg, hmsg⟩ := ih hr'
          refine ⟨msg, ?_⟩
          simp only [solveGo, if_neg h0, hrows, except_bind_ok, hmsg, except_bind_err]

/-- C1 (amended): for every relation with unobserved rows, provided the
engine output contains at least one atom parsed under that relation,
solve() returns one result row per query row: the first arity columns
followed by the parsed value for that key, or 0.0 when the key is absent
from the parsed results.  When the engine output contains no atom at all
for the relation, solve() raises a key lookup error instead of returning
rows. -/
theorem tuffy_solve_amended (relations : List Relation) (lines : List Str)
    (r : Relation) (hr : r ∈ relations) (hu : r.unobservedData ≠ [])
    (raw : RMap) (hraw : readResults relations lines false = .ok raw) :
    (∀ m, alGet raw (some r) = some m →
      ∀ res, solveTuffy relations lines = .ok res →
        alGet res r = some (r.unobservedData.map (fun row =>
          (row.take r.arity, (alGet m (row.take r.arity)).getD 0)))) ∧
    (alGet raw (some r) = none →
      ∃ msg, solveTuffy relations lines = .error (.keyError msg)) := by
  constructor
  · intro m hm res hres
    unfold solveTuffy at hres
    rw [hraw, except_bind_ok] at hres
    exact solveGo_ok_lookup raw relations res hres r hr hu m hm
  · intro hm
    obtain ⟨msg, hmsg⟩ := solveGo_missing_err raw relations r hr hu hm
    refine ⟨msg, ?_⟩
    unfold solveTuffy
    rw [hraw, except_bind_ok, hmsg]

/-- The relation of the C1 witness and counterexample: Friends with one
unobserved row (a, b). -/
def relFriendsC1 : Relation :=
  { name := str ("Friends"), arity := 2, variableTypes := [str ("P"), str ("P")],
    observedData := [], unobservedData := [[str ("a"), str ("b")]], isObserved := false,
    negativePriorWeight := none }

/-- Witness for the amended C1 theorem: the engine output holds an atom
for Friends but not for the queried key (a, b), so solve() returns the key
columns followed by 0.0. -/
theorem tuffy_solve_amended_witness :
    alGet [(relFriendsC1, [([str ("a"), str ("b")], (0 : Rat))])] relFriendsC1
      = some ((relFriendsC1.unobservedData).map (fun row =>
          (row.take relFriendsC1.arity,
           (alGet [([str ("x"), str ("y")], (1 : Rat))]
             (row.take relFriendsC1.arity)).getD 0))) := by
  have h := (tuffy_solve_amended [relFriendsC1] [str ("Friends(x, y)")] relFriendsC1
    (by simp) (by with_unfolding_all decide)
    [(some relFriendsC1, [([str ("x"), str ("y")], (1 : Rat))])]
    (by with_unfolding_all decide)).1
    [([str ("x"), str ("y")], (1 : Rat))] (by with_unfolding_all decide)
    [(relFriendsC1, [([str ("a"), str ("b")], (0 : Rat))])]
    (by with_unfolding_all decide)
  exact h

/-- C1 counterexample: the engine output contains no atom at all for the
relation Friends (here: an empty output), and solve() raises KeyError
instead of returning the query row with 0.0 appended as the claim
states. -/
theorem tuffy_solve_counterexample :
    solveTuffy [relFriendsC1] [] = .error (.keyError (str ("Friends"))) ∧
    solveTuffy [relFriendsC1] [] ≠
      .ok [(relFriendsC1, [([str ("a"), str ("b")], (0 : Rat))])] := by
  constructor
  · with_unfolding_all decide
  · with_unfolding_all decide

theorem containsSub_self (pat : Str) : containsSub pat pat = true := by
  cases pat with
  | nil => simp [containsSub]
  | cons p pt =>
    rw [containsSub_cons]
    have : (p :: pt).isPrefixOf (p :: pt) = true :=
      List.isPrefixOf_iff_prefix.mpr (List.prefix_refl _)
    simp [this]

theorem containsSub_append_self (a pat : Str) : containsSub pat (a ++ pat) = true := by
  induction a with
  | nil => simpa using containsSub_self pat
  | cons c a' ih =>
    rw [List.cons_append, containsSub_cons, ih]
    simp

theorem parseWeightsStep_active (st : PWState) (line : Str)
    (hskip : st.skip = false) (hm : containsSub markerStr line = false)
    (hb : ¬(pyStrip line = [])) :
    parseWeightsStep st line =
      (match matchPrior (pyStrip line) with
       | some (g1, g2, _) =>
           if relMapHas st.relations (upperS g2) then
             .ok { st with relations :=
               setPriorLast st.relations (upperS g2) (ratOfFloatChars g1) }
           else .error (.valueError (priorLookupErrMsg (upperS g2) (pyStrip line)))
       | none =>
         match matchSoft (pyStrip line) with
         | some (g1, d) => do
             let ws ← pySet st.weights ((natD (d.takeWhile isDig) : Int) - 1)
               (.soft (ratOfFloatChars g1))
             .ok { st with weights := ws }
         | none =>
           match matchHard (pyStrip line) with
           | some d => do
               let ws ← pySet st.weights ((natD (d.takeWhile isDig) : Int) - 1) .hard
               .ok { st with weights := ws }
           | none => .error (.valueError (parseFailMsg (pyStrip line)))) := by
  unfold parseWeightsStep
  rw [hm, hskip]
  simp only [Bool.false_eq_true, if_false]
  rw [if_neg hb]

/-- C3: after the marker, a non-blank line is matched against the three
patterns in fixed priority order.  A line matching the prior pattern never
touches the weight slots even if it also matches the soft pattern; a line
failing the prior pattern but matching the soft pattern never touches the
relations; and a line matching none of the three patterns raises a parse
failure whose message contains the offending line — no line is silently
skipped. -/
theorem tuffy_parse_line_priority (st : PWState) (line : Str)
    (hskip : st.skip = false) (hm : containsSub markerStr line = false)
    (hb : ¬(pyStrip line = [])) :
    (matchPrior (pyStrip line) ≠ none →
       ∀ st', parseWeightsStep st line = .ok st' → st'.weights = st.weights) ∧
    (matchPrior (pyStrip line) = none →
       matchSoft (pyStrip line) ≠ none →
       ∀ st', parseWeightsStep st line = .ok st' → st'.relations = st.relations) ∧
    (matchPrior (pyStrip line) = none →
       matchSoft (pyStrip line) = none →
       matchHard (pyStrip line) = none →
       parseWeightsStep st line = .error (.valueError (parseFailMsg (pyStrip line))) ∧
       containsSub (pyStrip line) (parseFailMsg (pyStrip line)) = true) := by
  rw [parseWeightsStep_active st line hskip hm hb]
  refine ⟨?_, ?_, ?_⟩
  · intro hp st' hok
    cases hmp : matchPrior (pyStrip line) with
    | none => exact absurd hmp hp
    | some g =>
      obtain ⟨g1, g2, g3⟩ := g
      rw [hmp] at hok
      dsimp only at hok
      by_cases hhas : relMapHas st.relations (upperS g2) = true
      · rw [if_pos hhas] at hok
        cases hok
        rfl
      · rw [if_neg hhas] at hok
        cases hok
  · intro hp hs st' hok
    rw [hp] at hok
    cases hms : matchSoft (pyStrip line) with
    | none => exact absurd hms hs
    | some g =>
      obtain ⟨g1, d⟩ := g
      rw [hms] at hok
      dsimp only at hok
      cases hset : pySet st.weights ((natD (d.takeWhile isDig) : Int) - 1)
          (.soft (ratOfFloatChars g1)) with
      | error e =>
        rw [hset, except_bind_err] at hok
        cases hok
      | ok ws =>
        rw [hset, except_bind_ok] at hok
        cases hok
        rfl
  · intro hp hs hh
    rw [hp, hs, hh]
    exact ⟨rfl, containsSub_append_self _ _⟩


/-- Witness for C3 at a concrete state and line: the line matches none of
the three learn-output patterns, so the step fails with a ValueError whose
message contains the line. -/
theorem tuffy_parse_line_priority_witness :
    parseWeightsStep { skip := false, weights := [.unset], relations := [] }
        (str ("mystery line"))
      = .error (.valueError (parseFailMsg (str ("mystery line")))) ∧
    containsSub (str ("mystery line")) (parseFailMsg (str ("mystery line"))) = true := by
  have h := (tuffy_parse_line_priority
    { skip := false, weights := [.unset], relations := [] }
    (str ("mystery line")) rfl (by decide) (by decide)).2.2
    (by decide) (by decide) (by decide)
  have hs : pyStrip (str ("mystery line")) = str ("mystery line") := by decide
  rw [hs] at h
  exact h

theorem relMapHas_iff (relations : List Relation) (rn : Str) :
    relMapHas relations rn = true ↔ ∃ r ∈ relations, upperS r.name = rn := by
  simp [relMapHas, List.any_eq_true]

theorem map_prior_id (rest : List Relation) (rn : Str) (w : Rat)
    (h : ∀ x ∈ rest, ¬(upperS x.name = rn)) :
    rest.map (fun r => if upperS r.name = rn then r.setNegPrior w else r) = rest := by
  rw [List.map_congr_left (fun x hx => if_neg (h x hx))]
  exact List.map_id _

theorem setPriorLast_nodup (relations : List Relation) (rn : Str) (w : Rat)
    (hn : (relations.map (fun r => upperS r.name)).Nodup) :
    setPriorLast relations rn w =
      relations.map (fun r => if upperS r.name = rn then r.setNegPrior w else r) := by
  induction relations with
  | nil => rfl
  | cons r rest ih =>
    rw [List.map_cons, List.nodup_cons] at hn
    obtain ⟨hout, hrest⟩ := hn
    by_cases hhas : relMapHas rest rn = true
    · obtain ⟨x, hx, hxn⟩ := (relMapHas_iff rest rn).mp hhas
      have hne : ¬(upperS r.name = rn) := by
        intro he
        exact hout (by
          rw [he, ← hxn]
          exact List.mem_map_of_mem _ hx)
      rw [setPriorLast, if_pos hhas, List.map_cons, if_neg hne, ih hrest]
    · have hnone : ∀ x ∈ rest, ¬(upperS x.name = rn) := by
        intro x hx hxe
        exact hhas ((relMapHas_iff rest rn).mpr ⟨x, hx, hxe⟩)
      by_cases he : upperS r.name = rn
      · rw [setPriorLast, if_neg hhas, if_pos he, List.map_cons, if_pos he,
          map_prior_id rest rn w hnone]
      · rw [setPriorLast, if_neg hhas, if_neg he, List.map_cons, if_neg he, ih hrest]

/-- C4: a prior-weight output line resolves its relation name
case-insensitively (both sides upper-cased).  When no relation matches,
parsing fails at once with a lookup error containing the offending line;
when one matches, the leading float is recorded as that relation's
negative prior weight and the weight slots are untouched. -/
theorem tuffy_prior_line_resolution (st : PWState) (line g1 g2 g3 : Str)
    (hskip : st.skip = false) (hm : containsSub markerStr line = false)
    (hb : ¬(pyStrip line = []))
    (hp : matchPrior (pyStrip line) = some (g1, g2, g3))
    (hn : (st.relations.map (fun r => upperS r.name)).Nodup) :
    ((∀ r ∈ st.relations, ¬(upperS r.name = upperS g2)) →
       parseWeightsStep st line =
         .error (.valueError (priorLookupErrMsg (upperS g2) (pyStrip line))) ∧
       containsSub (pyStrip line)
         (priorLookupErrMsg (upperS g2) (pyStrip line)) = true) ∧
    ((∃ r ∈ st.relations, upperS r.name = upperS g2) →
       parseWeightsStep st line = .ok { st with relations := (st.relations.map
         (fun r => if upperS r.name = upperS g2
            then r.setNegPrior (ratOfFloatChars g1) else r)) }) := by
  rw [parseWeightsStep_active st line hskip hm hb, hp]
  dsimp only
  constructor
  · intro hnone
    have hhas : ¬(relMapHas st.relations (upperS g2) = true) := by
      intro hh
      obtain ⟨x, hx, hxe⟩ := (relMapHas_iff _ _).mp hh
      exact hnone x hx hxe
    rw [if_neg hhas]
    refine ⟨rfl, ?_⟩
    unfold priorLookupErrMsg
    exact containsSub_append_self _ _
  · intro hex
    rw [if_pos ((relMapHas_iff _ _).mpr hex),
      setPriorLast_nodup st.relations (upperS g2) (ratOfFloatChars g1) hn]

/-- The relation of the C4 witness. -/
def relSmokesC4 : Relation :=
  { name := str ("Smokes"), arity := 1, variableTypes := [str ("P")],
    observedData := [], unobservedData := [[str ("a")]], isObserved := false,
    negativePriorWeight := none }

/-- Witness for C4 at a concrete state and line: the prior line refers to
SMOKES while the relation is declared Smokes; the match is found
case-insensitively and the float 0.25 is recorded as the negative prior
weight. -/
theorem tuffy_prior_line_resolution_witness :
    parseWeightsStep { skip := false, weights := [.unset], relations := [relSmokesC4] }
        (str ("0.250000 !SMOKES(a) //3.0"))
      = .ok { skip := false, weights := [.unset],
              relations := [relSmokesC4.setNegPrior (1 / 4)] } := by
  have h := (tuffy_prior_line_resolution
    { skip := false, weights := [.unset], relations := [relSmokesC4] }
    (str ("0.250000 !SMOKES(a) //3.0"))
    (str ("0.250000")) (str ("SMOKES")) (str ("3.0"))
    rfl (by decide) (by decide) (by decide) (by decide)).2
    ⟨relSmokesC4, by simp, by decide⟩
  refine h.trans ?_
  with_unfolding_all decide

/-- The weight-slot assignment carried by an output line while parsing is
active: the 1-based index embedded in the trailing comment of a soft or
hard rule line, with its stored cell; none for marker lines, blank lines,
prior lines and unparseable lines. -/
def assignIdxOf (line : Str) : Option (Int × WeightVal) :=
  if containsSub markerStr line then none
  else
    let l := pyStrip line
    if l = [] then none
    else
      match matchPrior l with
      | some _ => none
      | none =>
        match matchSoft l with
        | some (g1, d) =>
            some ((natD (d.takeWhile isDig) : Int) - 1, .soft (ratOfFloatChars g1))
        | none =>
          match matchHard l with
          | some d => some ((natD (d.takeWhile isDig) : Int) - 1, .hard)
          | none => none

theorem pySet_ok_iff {α : Type} (l : List α) (i : Int) (v : α) (l' : List α) :
    pySet l i v = .ok l' ↔ ∃ j, effSlot l.length i = some j ∧ l' = l.set j v := by
  unfold pySet
  cases h : effSlot l.length i with
  | none =>
    constructor
    · intro hh
      cases hh
    · intro ⟨j, hj, _⟩
      cases hj
  | some j =>
    constructor
    · intro hh
      cases hh
      exact ⟨j, rfl, rfl⟩
    · intro ⟨j', hj, hl⟩
      cases hj
      rw [hl]

theorem pySet_err {α : Type} (l : List α) (i : Int) (v : α)
    (h : effSlot l.length i = none) :
    pySet l i v = .error (.indexError (str ("list assignment index out of range"))) := by
  unfold pySet
  rw [h]

theorem pySet_ok_length {α : Type} {l : List α} {i : Int} {v : α} {l' : List α}
    (h : pySet l i v = .ok l') : l'.length = l.length := by
  obtain ⟨j, _, hl⟩ := (pySet_ok_iff l i v l').mp h
  rw [hl, List.length_set]

theorem step_ok_false_char (st st' : PWState) (line : Str)
    (hskip : st.skip = false) (hok : parseWeightsStep st line = .ok st') :
    st'.skip = false ∧ st'.weights.length = st.weights.length ∧
    ((assignIdxOf line = none ∧ st'.weights = st.weights) ∨
     (∃ i v, assignIdxOf line = some (i, v) ∧ pySet st.weights i v = .ok st'.weights)) := by
  unfold parseWeightsStep at hok
  unfold assignIdxOf
  by_cases hmk : containsSub markerStr line = true
  · rw [if_pos hmk] at hok
    cases hok
    rw [if_pos hmk]
    exact ⟨rfl, rfl, Or.inl ⟨rfl, rfl⟩⟩
  · have hmk' : containsSub markerStr line = false := by
      cases hq : containsSub markerStr line
      · rfl
      · exact absurd hq hmk
    rw [hmk', if_neg (by simp), hskip, if_neg (by simp)] at hok
    rw [hmk', if_neg (by simp)]
    dsimp only at hok ⊢
    by_cases hbl : pyStrip line = []
    · rw [if_pos hbl] at hok ⊢
      cases hok
      exact ⟨hskip, rfl, Or.inl ⟨rfl, rfl⟩⟩
    · rw [if_neg hbl] at hok ⊢
      cases hmp : matchPrior (pyStrip line) with
      | some g =>
        obtain ⟨g1, g2, g3⟩ := g
        rw [hmp] at hok
        dsimp only at hok ⊢
        by_cases hhas : relMapHas st.relations (upperS g2) = true
        · rw [if_pos hhas] at hok
          cases hok
          exact ⟨rfl, rfl, Or.inl ⟨rfl, rfl⟩⟩
        · rw [if_neg hhas] at hok
          cases hok
      | none =>
        rw [hmp] at hok
        dsimp only
        cases hms : matchSoft (pyStrip line) with
        | some g =>
          obtain ⟨g1, d⟩ := g
          rw [hms] at hok
          dsimp only at hok ⊢
          cases hset : pySet st.weights ((natD (d.takeWhile isDig) : Int) - 1)
              (.soft (ratOfFloatChars g1)) with
          | error e =>
            rw [hset, except_bind_err] at hok
            cases hok
          | ok ws =>
            rw [hset, except_bind_ok] at hok
            cases hok
            exact ⟨rfl, pySet_ok_length hset, Or.inr ⟨_, _, rfl, hset⟩⟩
        | none =>
          rw [hms] at hok
          dsimp only
          cases hmh : matchHard (pyStrip line) with
          | some d =>
            rw [hmh] at hok
            dsimp only at hok ⊢
            cases hset : pySet st.weights ((natD (d.takeWhile isDig) : Int) - 1) .hard with
            | error e =>
              rw [hset, except_bind_err] at hok
              cases hok
            | ok ws =>
              rw [hset, except_bind_ok] at hok
              cases hok
              exact ⟨rfl, pySet_ok_length hset, Or.inr ⟨_, _, rfl, hset⟩⟩
          | none =>
            rw [hmh] at hok
            cases hok

theorem runLines_skip_true (lines : List Str) (st : PWState)
    (hskip : st.skip = true)
    (hm : ∀ l ∈ lines, containsSub markerStr l = false) :
    runLines st lines = .ok st := by
  induction lines with
  | nil => rfl
  | cons l ls ih =>
    have hstep : parseWeightsStep st l = .ok st := by
      unfold parseWeightsStep
      rw [hm l (by simp), if_neg (by simp), hskip]
      simp
    unfold runLines
    rw [hstep]
    exact ih (fun x hx => hm x (by simp [hx]))

theorem runLines_append (a b : List Str) :
    ∀ st st', runLines st (a ++ b) = .ok st' →
    ∃ stm, runLines st a = .ok stm ∧ runLines stm b = .ok st' := by
  induction a with
  | nil =>
    intro st st' h
    exact ⟨st, rfl, h⟩
  | cons l ls ih =>
    intro st st' h
    rw [List.cons_append] at h
    unfold runLines at h
    cases hstep : parseWeightsStep st l with
    | error e => rw [hstep] at h; cases h
    | ok st1 =>
      rw [hstep] at h
      obtain ⟨stm, h1, h2⟩ := ih st1 st' h
      refine ⟨stm, ?_, h2⟩
      unfold runLines
      rw [hstep]
      exact h1

theorem runLines_false_char (lines : List Str) :
    ∀ st st', st.skip = false → runLines st lines = .ok st' →
    st'.skip = false ∧ st'.weights.length = st.weights.length := by
  induction lines with
  | nil =>
    intro st st' hskip h
    cases h
    exact ⟨hskip, rfl⟩
  | cons l ls ih =>
    intro st st' hskip h
    unfold runLines at h
    cases hstep : parseWeightsStep st l with
    | error e => rw [hstep] at h; cases h
    | ok st1 =>
      rw [hstep] at h
      obtain ⟨h1, h2, _⟩ := step_ok_false_char st st1 l hskip hstep
      obtain ⟨h3, h4⟩ := ih st1 st' h1 h
      exact ⟨h3, h4.trans h2⟩

theorem runLines_preserve (lines : List Str) :
    ∀ st st', st.skip = false → runLines st lines = .ok st' →
    ∀ j : Nat,
      (∀ l ∈ lines, ∀ i v, assignIdxOf l = some (i, v) →
        effSlot st.weights.length i ≠ some j) →
      st'.weights.get? j = st.weights.get? j := by
  induction lines with
  | nil =>
    intro st st' _ h j _
    cases h
    rfl
  | cons l ls ih =>
    intro st st' hskip h j hno
    unfold runLines at h
    cases hstep : parseWeightsStep st l with
    | error e => rw [hstep] at h; cases h
    | ok st1 =>
      rw [hstep] at h
      obtain ⟨h1, h2, hd⟩ := step_ok_false_char st st1 l hskip hstep
      have hno1 : ∀ x ∈ ls, ∀ i v, assignIdxOf x = some (i, v) →
          effSlot st1.weights.length i ≠ some j := by
        intro x hx i v ha
        rw [h2]
        exact hno x (by simp [hx]) i v ha
      have htail := ih st1 st' h1 h j hno1
      rw [htail]
      cases hd with
      | inl hsame => rw [hsame.2]
      | inr hassign =>
        obtain ⟨i, v, ha, hset⟩ := hassign
        obtain ⟨j0, hj0, hw⟩ := (pySet_ok_iff _ _ _ _).mp hset
        have hne : ¬(j0 = j) := by
          intro he
          exact hno l (by simp) i v ha (he ▸ hj0)
        rw [hw]
        exact List.get?_set_ne _ _ hne

theorem effSlot_lt {n : Nat} {i : Int} {j : Nat} (h : effSlot n i = some j) :
    j < n := by
  unfold effSlot at h
  dsimp only at h
  split at h
  · split at h
    · cases h
      omega
    · cases h
  · split at h
    · cases h
      omega
    · cases h

theorem runLines_assign (L1 : List Str) (l : Str) (L2 : List Str) :
    ∀ st st', st.skip = false → runLines st (L1 ++ l :: L2) = .ok st' →
    ∀ i v j, assignIdxOf l = some (i, v) →
      effSlot st.weights.length i = some j →
      (∀ l2 ∈ L2, ∀ i2 v2, assignIdxOf l2 = some (i2, v2) →
        effSlot st.weights.length i2 ≠ some j) →
      st'.weights.get? j = some v := by
  intro st st' hskip h i v j ha hj hno
  obtain ⟨st1, hrun1, hrest⟩ := runLines_append L1 (l :: L2) st st' h
  obtain ⟨hskip1, hlen1⟩ := runLines_false_char L1 st st1 hskip hrun1
  unfold runLines at hrest
  cases hstep : parseWeightsStep st1 l with
  | error e => rw [hstep] at hrest; cases hrest
  | ok st2 =>
    rw [hstep] at hrest
    obtain ⟨hskip2, hlen2, hd⟩ := step_ok_false_char st1 st2 l hskip1 hstep
    cases hd with
    | inl hsame =>
      rw [hsame.1] at ha
      cases ha
    | inr hassign =>
      obtain ⟨i', v', ha', hset⟩ := hassign
      rw [ha'] at ha
      cases ha
      obtain ⟨j0, hj0, hw⟩ := (pySet_ok_iff _ _ _ _).mp hset
      rw [hlen1] at hj0
      have hje : j0 = j := by
        rw [hj0] at hj
        exact Option.some.inj hj
      have hget : st2.weights.get? j0 = some v := by
        rw [hw]
        apply List.get?_set_eq_of_lt
        rw [hlen1]
        exact effSlot_lt hj0
      have hpres := runLines_preserve L2 st2 st' hskip2 hrest j0 (by
        intro x hx i2 v2 ha2
        rw [hlen2, hlen1, hje]
        exact hno x hx i2 v2 ha2)
      rw [← hje, hpres]
      exact hget

theorem effSlot_of_range {n : Nat} {i : Int} (h0 : 0 ≤ i) (h1 : i < n) :
    effSlot n i = some i.toNat := by
  unfold effSlot
  dsimp only
  simp only [if_neg (show ¬(i < 0) by omega)]
  rw [if_pos ⟨h0, h1⟩]

theorem zipWith_get?_some {α β γ : Type} (f : α → β → γ) :
    ∀ (l1 : List α) (l2 : List β) (j : Nat) (a : α) (b : β),
      l1.get? j = some a → l2.get? j = some b →
      (List.zipWith f l1 l2).get? j = some (f a b) := by
  intro l1
  induction l1 with
  | nil => intro l2 j a b h1 _; simp at h1
  | cons x xs ih =>
    intro l2 j a b h1 h2
    cases l2 with
    | nil => simp at h2
    | cons y ys =>
      cases j with
      | zero =>
        simp only [List.get?] at h1 h2
        cases h1
        cases h2
        rfl
      | succ j' =>
        simp only [List.get?] at h1 h2 ⊢
        exact ih ys j' a b h1 h2

/-- The parser state right after the marker line is seen. -/
def activePW (relations : List Relation) (n : Nat) : PWState :=
  { skip := false, weights := List.replicate n WeightVal.unset, relations := relations }

theorem parseWeights_decomp (relations : List Relation) (n : Nat)
    (pre : List Str) (m : Str) (post : List Str) (ws : List WeightVal)
    (rels' : List Relation)
    (hm : containsSub markerStr m = true)
    (hpre : ∀ l ∈ pre, containsSub markerStr l = false)
    (hparse : parseWeights relations n (pre ++ m :: post) = .ok (ws, rels')) :
    ∃ stf, runLines (activePW relations n) post = .ok stf ∧
      stf.weights = ws ∧ stf.relations = rels' := by
  unfold parseWeights at hparse
  cases hrun : runLines { skip := true, weights := List.replicate n .unset, relations := relations } (pre ++ m :: post) with
  | error e => rw [hrun] at hparse; cases hparse
  | ok stf =>
    rw [hrun] at hparse
    cases hparse
    obtain ⟨stm, h1, h2⟩ := runLines_append pre (m :: post) _ _ hrun
    rw [runLines_skip_true pre _ rfl hpre] at h1
    cases h1
    unfold runLines at h2
    have hstep : parseWeightsStep { skip := true, weights := List.replicate n .unset, relations := relations } m = .ok (activePW relations n) := by
      unfold parseWeightsStep
      rw [if_pos hm]
      rfl
    rw [hstep] at h2
    exact ⟨stf, h2, rfl, rfl⟩

/-- C2: weight parsing assigns by the index embedded in each output line,
independently of line order: when the tags of the post-marker lines are
pairwise distinct and in range, a soft line stores its leading float in
the slot selected by its tag, a hardfixed line stores the fixed sentinel
in its slot (assignIdxOf exposes the embedded 1-based tag minus one), the
weight list has one cell per rule, and learn() applies slot i back onto
rule i. -/
theorem tuffy_weight_index_assignment
    (relations : List Relation) (rules : List Rule) (pre : List Str) (m : Str)
    (post : List Str) (ws : List WeightVal) (rels' : List Relation)
    (hm : containsSub markerStr m = true)
    (hpre : ∀ l ∈ pre, containsSub markerStr l = false)
    (hparse : parseWeights relations rules.length (pre ++ m :: post) = .ok (ws, rels'))
    (hrange : ∀ l ∈ post, ∀ i v, assignIdxOf l = some (i, v) →
      0 ≤ i ∧ i < (rules.length : Int))
    (hdist : (post.filterMap (fun l => (assignIdxOf l).map (fun p => p.1))).Nodup) :
    ws.length = rules.length ∧
    (∀ l ∈ post, ∀ i v, assignIdxOf l = some (i, v) → ws.get? i.toNat = some v) ∧
    (∀ rules2 rels2, learnTuffy relations rules (pre ++ m :: post) = .ok (rules2, rels2) →
      rels2 = rels' ∧
      ∀ j ru w, rules.get? j = some ru → ws.get? j = some w →
        rules2.get? j = some (ru.set_weight w)) := by
  obtain ⟨stf, hrun, hwf, hrf⟩ :=
    parseWeights_decomp relations rules.length pre m post ws rels' hm hpre hparse
  have hlen : ws.length = rules.length := by
    rw [← hwf]
    have := (runLines_false_char post (activePW relations rules.length) stf rfl hrun).2
    simpa [activePW] using this
  refine ⟨hlen, ?_, ?_⟩
  · intro l hl i v ha
    obtain ⟨L1, L2, hdecomp⟩ := List.append_of_mem hl
    subst hdecomp
    obtain ⟨h0, h1⟩ := hrange l (by simp) i v ha
    have hj : effSlot (activePW relations rules.length).weights.length i
        = some i.toNat := by
      simp only [activePW, List.length_replicate]
      exact effSlot_of_range h0 h1
    have hno : ∀ l2 ∈ L2, ∀ i2 v2, assignIdxOf l2 = some (i2, v2) →
        effSlot (activePW relations rules.length).weights.length i2
          ≠ some i.toNat := by
      intro l2 hl2 i2 v2 ha2 hcontra
      simp only [activePW, List.length_replicate] at hcontra
      have hr2 := hrange l2 (by simp [hl2]) i2 v2 ha2
      have hslot2 : effSlot rules.length i2 = some i2.toNat :=
        effSlot_of_range hr2.1 hr2.2
      rw [hslot2] at hcontra
      have hieq : i2 = i := by
        have := Option.some.inj hcontra
        omega
      simp only [List.filterMap_append, List.filterMap_cons, ha,
        Option.map_some'] at hdist
      have hmem2 : i ∈ L2.filterMap (fun l => (assignIdxOf l).map (fun p => p.1)) := by
        refine List.mem_filterMap.mpr ⟨l2, hl2, ?_⟩
        rw [ha2, hieq]
        rfl
      have := (List.nodup_append.mp hdist).2.1
      rw [List.nodup_cons] at this
      exact this.1 (by simp [hmem2])
    have := runLines_assign L1 l L2 (activePW relations rules.length) stf rfl hrun
      i v i.toNat ha hj hno
    rw [hwf] at this
    exact this
  · intro rules2 rels2 hlearn
    unfold learnTuffy at hlearn
    rw [hparse] at hlearn
    cases hlearn
    refine ⟨rfl, ?_⟩
    intro j ru w hru hw
    exact zipWith_get?_some Rule.set_weight rules ws j ru w hru hw

/-- Rules and lines of the C2 witness. -/
def c2R1 : Rule := { text := str ("rule1"), weight := .soft 0 }

def c2R2 : Rule := { text := str ("rule2"), weight := .unset }

def c2RulesW : List Rule := [c2R1, c2R2]

def c2Pre : List Str := [str ("junk")]

def c2Marker : Str := str ("ax WEIGHT OF LAST ITERATION bla")

def c2Post : List Str :=
  [[], str ("rule2 . //2.0hardfixed"), str ("1.500000 rule1 //1.0")]

def c2LinesW : List Str := c2Pre ++ c2Marker :: c2Post

/-- Witness for C2 at a concrete output: the hardfixed line tagged //2.0
comes before the soft line tagged //1.0, yet slot 0 receives the soft
float and slot 1 the fixed sentinel, and learn() writes them back onto
the rules in order. -/
theorem tuffy_weight_index_assignment_witness :
    ([WeightVal.soft (3 / 2), WeightVal.hard].get? (Int.toNat 0)
      = some (WeightVal.soft (3 / 2))) ∧
    ([WeightVal.soft (3 / 2), WeightVal.hard].get? (Int.toNat 1)
      = some WeightVal.hard) ∧
    learnTuffy [] c2RulesW c2LinesW
      = .ok ([c2R1.set_weight (.soft (3 / 2)), c2R2.set_weight .hard], []) := by
  have h := tuffy_weight_index_assignment [] c2RulesW c2Pre c2Marker c2Post
    [WeightVal.soft (3 / 2), WeightVal.hard] []
    (by decide) (by decide) (by with_unfolding_all decide)
    (by
      intro l hl i v ha
      fin_cases hl
      · rw [show assignIdxOf [] = none from by decide] at ha
        cases ha
      · rw [show assignIdxOf (str ("rule2 . //2.0hardfixed"))
            = some (1, WeightVal.hard) from by with_unfolding_all decide] at ha
        cases ha
        exact ⟨by decide, by decide⟩
      · rw [show assignIdxOf (str ("1.500000 rule1 //1.0"))
            = some (0, WeightVal.soft (3 / 2)) from by with_unfolding_all decide] at ha
        cases ha
        exact ⟨by decide, by decide⟩)
    (by with_unfolding_all decide)
  refine ⟨?_, ?_, ?_⟩
  · exact h.2.1 (str ("1.500000 rule1 //1.0")) (by decide) 0 (.soft (3 / 2))
      (by with_unfolding_all decide)
  · exact h.2.1 (str ("rule2 . //2.0hardfixed")) (by decide) 1 .hard
      (by with_unfolding_all decide)
  · with_unfolding_all decide

theorem pySet_tag_bounds {α : Type} (w : List α) (k : Nat) (v : α) :
    (k = 0 → 1 ≤ w.length →
       pySet w ((k : Int) - 1) v = .ok (w.set (w.length - 1) v)) ∧
    (w.length < k →
       pySet w ((k : Int) - 1) v
         = .error (.indexError (str ("list assignment index out of range")))) := by
  constructor
  · intro hk hn
    unfold pySet
    have hi : ((k : Int) - 1) = -1 := by
      rw [hk]
      decide
    rw [hi]
    have heff : effSlot w.length (-1 : Int) = some (w.length - 1) := by
      unfold effSlot
      dsimp only
      have hii : (if (-1 : Int) < 0 then (-1 : Int) + w.length else -1)
          = (w.length : Int) - 1 := by
        rw [if_pos (by decide)]
        omega
      simp only [hii]
      rw [if_pos (by constructor <;> omega)]
      congr 1
      omega
    rw [heff]
  · intro hk
    apply pySet_err
    unfold effSlot
    dsimp only
    have hii : (if ((k : Int) - 1) < 0 then ((k : Int) - 1) + w.length
          else ((k : Int) - 1))
        = (k : Int) - 1 := by
      rw [if_neg (by omega)]
    simp only [hii]
    rw [if_neg (by omega)]

/-- C10: the 1-based index parsed from a soft-rule or a hard-rule output
line undergoes no bounds validation beyond the raw Python list
assignment: for either kind of line, a line tagged //0.0 does not fail
but silently assigns the last slot through Python negative indexing,
while a tag greater than the number of rules raises an out-of-range
IndexError, not a parse or lookup error. -/
theorem tuffy_index_no_bounds_validation (st : PWState) (line : Str)
    (k : Nat) (v : WeightVal)
    (hskip : st.skip = false) (hm : containsSub markerStr line = false)
    (hb : ¬(pyStrip line = []))
    (hp : matchPrior (pyStrip line) = none)
    (hkv : (∃ g1 d, matchSoft (pyStrip line) = some (g1, d) ∧
              k = natD (d.takeWhile isDig) ∧ v = .soft (ratOfFloatChars g1)) ∨
           (matchSoft (pyStrip line) = none ∧
            ∃ d, matchHard (pyStrip line) = some d ∧
              k = natD (d.takeWhile isDig) ∧ v = .hard)) :
    (k = 0 → 1 ≤ st.weights.length →
       parseWeightsStep st line = .ok { st with weights :=
         (st.weights.set (st.weights.length - 1) v) }) ∧
    (st.weights.length < k →
       parseWeightsStep st line =
         .error (.indexError (str ("list assignment index out of range")))) := by
  rw [parseWeightsStep_active st line hskip hm hb, hp]
  dsimp only
  cases hkv with
  | inl hsoft =>
    obtain ⟨g1, d, hs, hkeq, hveq⟩ := hsoft
    rw [hs]
    dsimp only
    subst hkeq
    subst hveq
    constructor
    · intro hk hn
      rw [(pySet_tag_bounds st.weights _ _).1 hk hn, except_bind_ok]
    · intro hk
      rw [(pySet_tag_bounds st.weights _ _).2 hk, except_bind_err]
  | inr hhard =>
    obtain ⟨hsn, d, hh, hkeq, hveq⟩ := hhard
    rw [hsn]
    dsimp only
    rw [hh]
    dsimp only
    subst hkeq
    subst hveq
    constructor
    · intro hk hn
      rw [(pySet_tag_bounds st.weights _ _).1 hk hn, except_bind_ok]
    · intro hk
      rw [(pySet_tag_bounds st.weights _ _).2 hk, except_bind_err]

/-- The parser state of the C10 witness: two rule slots, parsing active. -/
def c10St : PWState := { skip := false, weights := [.unset, .unset], relations := [] }

/-- Witness for C10 at concrete lines of both kinds: with two rules, the
soft line tagged //0.0 and the hardfixed line tagged //0.0 each silently
assign the last slot, and the soft and hardfixed lines tagged //9.0 each
raise IndexError. -/
theorem tuffy_index_no_bounds_validation_witness :
    (parseWeightsStep c10St (str ("1.500000 x //0.0"))
      = .ok { skip := false, weights := [.unset, .soft (3 / 2)], relations := [] }) ∧
    (parseWeightsStep c10St (str ("1.500000 x //9.0"))
      = .error (.indexError (str ("list assignment index out of range")))) ∧
    (parseWeightsStep c10St (str ("rule2 . //0.0hardfixed"))
      = .ok { skip := false, weights := [.unset, .hard], relations := [] }) ∧
    (parseWeightsStep c10St (str ("rule2 . //9.0hardfixed"))
      = .error (.indexError (str ("list assignment index out of range")))) := by
  refine ⟨?_, ?_, ?_, ?_⟩
  · have h := (tuffy_index_no_bounds_validation c10St (str ("1.500000 x //0.0"))
      0 (.soft (ratOfFloatChars (str ("1.500000")))) rfl (by decide) (by decide)
      (by decide)
      (Or.inl ⟨str ("1.500000"), str ("0.0"), by decide, by decide, rfl⟩)).1
      rfl (by decide)
    refine h.trans ?_
    with_unfolding_all decide
  · have h := (tuffy_index_no_bounds_validation c10St (str ("1.500000 x //9.0"))
      9 (.soft (ratOfFloatChars (str ("1.500000")))) rfl (by decide) (by decide)
      (by decide)
      (Or.inl ⟨str ("1.500000"), str ("9.0"), by decide, by decide, rfl⟩)).2
      (by decide)
    exact h
  · have h := (tuffy_index_no_bounds_validation c10St (str ("rule2 . //0.0hardfixed"))
      0 .hard rfl (by decide) (by decide) (by decide)
      (Or.inr ⟨by decide, str ("0.0"), by decide, by decide, rfl⟩)).1
      rfl (by decide)
    refine h.trans ?_
    with_unfolding_all decide
  · have h := (tuffy_index_no_bounds_validation c10St (str ("rule2 . //9.0hardfixed"))
      9 .hard rfl (by decide) (by decide) (by decide)
      (Or.inr ⟨by decide, str ("9.0"), by decide, by decide, rfl⟩)).2
      (by decide)
    exact h
